import Mathlib

/-!
Verification development for the safe-mutation pipeline of the repository
(source file src/tools/ComposerTools.ts). Text is embedded as List Char
(the inputs in scope are ASCII, so JavaScript UTF-16 code units coincide
with characters). JavaScript string primitives used by the source
(includes, replaceAll, trim, trimEnd, the line-ending regexes and the
SEARCH/REPLACE block regex) are translated below; stateful handlers are
modeled as pure state-passing functions over an explicit document store.
-/

/-- Whitespace test used for the regex class \s, for String.prototype.trim
and for String.prototype.trimEnd. Only the ASCII whitespace characters are
modeled; every input in scope is ASCII. -/
def isJsWhitespace (c : Char) : Bool :=
  c = ' ' || c = '\t' || c = '\n' || c = '\r' || c = '\x0b' || c = '\x0c'

/-- JavaScript String.prototype.trimEnd on a character list. -/
def jsTrimEnd (s : List Char) : List Char :=
  (s.reverse.dropWhile isJsWhitespace).reverse

/-- JavaScript String.prototype.trim on a character list. -/
def jsTrim (s : List Char) : List Char :=
  ((s.dropWhile isJsWhitespace).reverse.dropWhile isJsWhitespace).reverse

/-- JavaScript String.prototype.includes: does needle occur contiguously in
hay (the empty needle occurs in every string)? -/
def containsSubstr (hay needle : List Char) : Bool :=
  match hay with
  | [] => needle.isEmpty
  | _ :: rest => needle.isPrefixOf hay || containsSubstr rest needle

/-- First pass of normalizeLineEndings (ComposerTools.ts line 258): the
global regex replace of CRLF by LF, scanning left to right without
rescanning replaced output. -/
def replaceCrlfWithLf : List Char → List Char
  | [] => []
  | [c] => [c]
  | c :: c2 :: rest2 =>
    if c = '\r' ∧ c2 = '\n' then '\n' :: replaceCrlfWithLf rest2
    else c :: replaceCrlfWithLf (c2 :: rest2)

/-- Second pass of normalizeLineEndings (ComposerTools.ts line 258): the
global regex replace of any residual CR by LF. -/
def replaceCrWithLf (s : List Char) : List Char :=
  s.map (fun c => if c = '\r' then '\n' else c)

/-- normalizeLineEndings (ComposerTools.ts lines 257-259): CRLF becomes LF,
then any residual lone CR becomes LF. -/
def normalizeLineEndings (s : List Char) : List Char :=
  replaceCrWithLf (replaceCrlfWithLf s)

/-- Number of CRLF sequences, counted like the global regex match on line
271 of ComposerTools.ts: left to right, non-overlapping. -/
def countCrlf : List Char → Nat
  | [] => 0
  | [_] => 0
  | c :: c2 :: rest2 =>
    if c = '\r' ∧ c2 = '\n' then countCrlf rest2 + 1
    else countCrlf (c2 :: rest2)

/-- Helper for countLoneLf: counts LF characters whose preceding character
(tracked in prev) is not CR. -/
def countLoneLfAux (prev : Char) : List Char → Nat
  | [] => 0
  | c :: rest => (if c = '\n' ∧ prev ≠ '\r' then 1 else 0) + countLoneLfAux c rest

/-- Number of LF characters not preceded by CR, as counted by the
lookbehind regex on line 272 of ComposerTools.ts. -/
def countLoneLf (s : List Char) : Nat :=
  match s with
  | [] => 0
  | c :: rest => (if c = '\n' then 1 else 0) + countLoneLfAux c rest

/-- The usesCrlf flag of replaceWithLineEndingAwareness (ComposerTools.ts
line 273): CRLF is predominant iff the CRLF count strictly exceeds the
lone-LF count. -/
def detectUsesCrlf (content : List Char) : Bool :=
  countLoneLf content < countCrlf content

/-- The restore step of replaceWithLineEndingAwareness (ComposerTools.ts
line 288): the global regex replace of every LF by CRLF. -/
def lfToCrlf : List Char → List Char
  | [] => []
  | c :: rest => if c = '\n' then '\r' :: '\n' :: lfToCrlf rest else c :: lfToCrlf rest

/-- Restoration of a line-ending style (ComposerTools.ts lines 287-291):
when CRLF is the detected style every LF becomes CRLF, otherwise the text
is returned unchanged. -/
def restoreStyle (usesCrlf : Bool) (s : List Char) : List Char :=
  if usesCrlf then lfToCrlf s else s

/-- Interleaving used by JavaScript String.prototype.replaceAll with an
empty pattern: the replacement is inserted at every character boundary. -/
def interleaveRep (rep : List Char) : List Char → List Char
  | [] => []
  | c :: cs => c :: (rep ++ interleaveRep rep cs)

/-- Fueled scan of String.prototype.replaceAll with a non-empty pattern:
left to right, non-overlapping, the replacement is never rescanned. The
fuel is an upper bound on the number of scan steps; each step consumes at
least one character, so fuel equal to the input length always suffices
(the fuel-zero branch is unreachable from replaceAll). -/
def replaceAllFuel (pat rep : List Char) : Nat → List Char → List Char
  | 0, s => s
  | _ + 1, [] => []
  | fuel + 1, c :: cs =>
    if pat.isPrefixOf (c :: cs) then
      rep ++ replaceAllFuel pat rep fuel (List.drop (pat.length - 1) cs)
    else
      c :: replaceAllFuel pat rep fuel cs

/-- JavaScript String.prototype.replaceAll on character lists, as used on
line 281 of ComposerTools.ts. An empty pattern matches at every character
boundary, including before the first and after the last character. -/
def replaceAll (pat rep s : List Char) : List Char :=
  match pat with
  | [] => rep ++ interleaveRep rep s
  | _ :: _ => replaceAllFuel pat rep s.length s

/-- replaceWithLineEndingAwareness (ComposerTools.ts lines 265-292):
detect the predominant line-ending style of the given content, normalize
content, search text and replace text, replace all occurrences on the
normalized content, then convert back to CRLF iff CRLF was predominant. -/
def replaceWithLineEndingAwareness (content searchText replaceText : List Char) : List Char :=
  let usesCrlf := detectUsesCrlf content
  let normalizedContent := normalizeLineEndings content
  let normalizedSearchText := normalizeLineEndings searchText
  let normalizedReplaceText := normalizeLineEndings replaceText
  let resultNormalized := replaceAll normalizedSearchText normalizedReplaceText normalizedContent
  restoreStyle usesCrlf resultNormalized

/-- Does the text use the CRLF convention consistently: every CR is
immediately followed by LF and every LF immediately preceded by CR. -/
def isPureCrlf : List Char → Bool
  | [] => true
  | [c] => if c = '\r' then false else if c = '\n' then false else true
  | c :: c2 :: rest2 =>
    if c = '\r' then
      if c2 = '\n' then isPureCrlf rest2 else false
    else if c = '\n' then false
    else isPureCrlf (c2 :: rest2)

/-- One parsed SEARCH/REPLACE instruction (ComposerTools.ts lines 435-438),
both sides already trimmed. -/
structure EditBlock where
  searchText : List Char
  replaceText : List Char
deriving DecidableEq

/-- Backtracking matcher for a greedy single-character repetition with a
lower bound, such as the regex piece of three or more dashes: prefer
consuming another repeated character, fall back to the continuation once
at least min repetitions were consumed. -/
def repAtLeast (c : Char) (min : Nat) (k : List Char → Option α) : Nat → List Char → Option α
  | cnt, [] => if min ≤ cnt then k [] else none
  | cnt, x :: rest =>
    if x = c then
      match repAtLeast c min k (cnt + 1) rest with
      | some r => some r
      | none => if min ≤ cnt then k (x :: rest) else none
    else if min ≤ cnt then k (x :: rest) else none

/-- Backtracking matcher for the greedy regex piece of zero or more
whitespace characters: prefer consuming whitespace, fall back to the
continuation at every shorter prefix. -/
def wsStar (k : List Char → Option α) : List Char → Option α
  | [] => k []
  | c :: rest =>
    if isJsWhitespace c then
      match wsStar k rest with
      | some r => some r
      | none => k (c :: rest)
    else k (c :: rest)

/-- Backtracking matcher for the greedy optional line break regex piece:
prefer consuming CRLF or LF, fall back to consuming nothing. -/
def optionalNewline (k : List Char → Option α) (s : List Char) : Option α :=
  match s with
  | '\r' :: '\n' :: rest =>
    match k rest with
    | some r => some r
    | none => k s
  | '\n' :: rest =>
    match k rest with
    | some r => some r
    | none => k s
  | _ => k s

/-- Helper for lazyCapture: acc holds the reversed characters captured so
far; shortest capture is tried first, as the regex captures are lazy. -/
def lazyCaptureAux (k : List Char → List Char → Option α) : List Char → List Char → Option α
  | acc, s =>
    match k acc.reverse s with
    | some r => some r
    | none =>
      match s with
      | [] => none
      | c :: rest => lazyCaptureAux k (c :: acc) rest

/-- Backtracking matcher for a lazy capture group matching any characters:
the shortest capture whose continuation succeeds wins. -/
def lazyCapture (k : List Char → List Char → Option α) (s : List Char) : Option α :=
  lazyCaptureAux k [] s

/-- Literal string regex piece. -/
def litStr (w : List Char) (k : List Char → Option α) (s : List Char) : Option α :=
  if w.isPrefixOf s then k (s.drop w.length) else none

/-- Backtracking match of the whole SEARCH/REPLACE block regex of
ComposerTools.ts lines 440-451, anchored at the start of s: three or more
dashes, optional whitespace, the word SEARCH, optional whitespace, an
optional line break, a lazy capture, an optional line break, three or more
equals signs, optional whitespace, an optional line break, a lazy capture,
an optional line break, three or more plus signs, optional whitespace and
the word REPLACE. Returns both captures and the rest of the input after
the match. The combinators explore alternatives in the same order as the
regex engine, so the selected match is identical. -/
def matchBlockAt (s : List Char) : Option ((List Char × List Char) × List Char) :=
  repAtLeast '-' 3
    (wsStar
      (litStr ['S', 'E', 'A', 'R', 'C', 'H']
        (wsStar
          (optionalNewline
            (lazyCapture (fun cap1 =>
              optionalNewline
                (repAtLeast '=' 3
                  (wsStar
                    (optionalNewline
                      (lazyCapture (fun cap2 =>
                        optionalNewline
                          (repAtLeast '+' 3
                            (wsStar
                              (litStr ['R', 'E', 'P', 'L', 'A', 'C', 'E'] (fun rest =>
                                some ((cap1, cap2), rest))))
                            0)))))
                  0)))))))
    0 s

/-- Fueled loop of the global regex exec scan in parseSearchReplaceBlocks
(ComposerTools.ts lines 453-458): find the leftmost match at or after the
current position, trim both captures, continue after the match. A failed
position advances by one character; fuel one larger than the input length
always suffices because every successful match consumes at least one
character. -/
def parseBlocksLoop : Nat → List Char → List EditBlock
  | 0, _ => []
  | fuel + 1, s =>
    match matchBlockAt s with
    | some ((cap1, cap2), rest) =>
      { searchText := jsTrim cap1, replaceText := jsTrim cap2 } :: parseBlocksLoop fuel rest
    | none =>
      match s with
      | [] => []
      | _ :: rest => parseBlocksLoop fuel rest

/-- parseSearchReplaceBlocks (ComposerTools.ts lines 435-461): extract the
ordered list of SEARCH/REPLACE blocks from free instruction text, both
sides trimmed; text with no match yields the empty list. -/
def parseSearchReplaceBlocks (diff : List Char) : List EditBlock :=
  parseBlocksLoop (diff.length + 1) diff

/-- Result of the block application loop of replaceInFile (ComposerTools.ts
lines 322-350): either the early failure naming the search text of the
first block that was absent even after the trailing-whitespace fallback,
or the final working content together with the number of blocks whose
application changed the content. -/
inductive LoopResult where
  | notFound (searchText : List Char)
  | ok (content : List Char) (changesApplied : Nat)
deriving DecidableEq

/-- The block application loop of replaceInFile (ComposerTools.ts lines
325-350): for each block in order, check that the normalized search text
occurs in the normalized working content, retrying once with trailing
whitespace stripped from both sides of the block; on failure abort naming
the search text of the offending block; on success replace all occurrences
with line-ending awareness and count the block iff the content changed. -/
def applyBlocksLoop : List Char → Nat → List EditBlock → LoopResult
  | modifiedContent, changesApplied, [] => .ok modifiedContent changesApplied
  | modifiedContent, changesApplied, block :: rest =>
    let normalizedContent := normalizeLineEndings modifiedContent
    let normalizedSearchText := normalizeLineEndings block.searchText
    if containsSubstr normalizedContent normalizedSearchText then
      let newContent :=
        replaceWithLineEndingAwareness modifiedContent block.searchText block.replaceText
      applyBlocksLoop newContent
        (if newContent = modifiedContent then changesApplied else changesApplied + 1) rest
    else if containsSubstr normalizedContent (jsTrimEnd normalizedSearchText) then
      let newContent :=
        replaceWithLineEndingAwareness modifiedContent
          (jsTrimEnd block.searchText) (jsTrimEnd block.replaceText)
      applyBlocksLoop newContent
        (if newContent = modifiedContent then changesApplied else changesApplied + 1) rest
    else
      .notFound block.searchText

/-- The fixed minimum document size of replaceInFile (ComposerTools.ts
line 310). -/
def MIN_FILE_SIZE_FOR_REPLACE : Nat := 3000

/-- Outcome of one replaceInFile call (ComposerTools.ts lines 298-388).
The preview path hands the candidate content to the external preview
surface and performs no write of its own, so it leaves the store
unchanged from the point of view of this core. -/
inductive ToolOutcome where
  | fileTooSmall
  | noValidBlocks
  | searchTextNotFound (searchText : List Char)
  | noChanges
  | accepted (blocksApplied : Nat)
  | previewShown (blocksApplied : Nat)
deriving DecidableEq

/-- The rejection message of the minimum-size gate (ComposerTools.ts line
312), steering the caller toward the whole-file write tool. -/
def fileTooSmallMessage : List Char :=
  "File is too small to use this tool. Please use writeToFile instead.".data

/-- The handler of replaceInFileTool (ComposerTools.ts lines 298-388) as a
state-passing function on the content stored for the target file: read the
original content, reject documents below the minimum size before parsing,
parse the SEARCH/REPLACE blocks, reject when none parse, run the block
loop, report a no-op when the final content equals the original, and
persist the candidate only on the auto-accept path (the preview path
delegates any write to the external preview surface). The returned pair is
the outcome together with the content stored after the call. -/
def replaceInFileRun (originalContent diff : List Char) (autoAcceptEdits : Bool) :
    ToolOutcome × List Char :=
  if originalContent.length < MIN_FILE_SIZE_FOR_REPLACE then
    (.fileTooSmall, originalContent)
  else
    let searchReplaceBlocks := parseSearchReplaceBlocks diff
    if searchReplaceBlocks.length = 0 then
      (.noValidBlocks, originalContent)
    else
      match applyBlocksLoop originalContent 0 searchReplaceBlocks with
      | .notFound searchText => (.searchTextNotFound searchText, originalContent)
      | .ok modifiedContent changesApplied =>
        if originalContent = modifiedContent then
          (.noChanges, originalContent)
        else if autoAcceptEdits then
          (.accepted changesApplied, modifiedContent)
        else
          (.previewShown changesApplied, originalContent)

/-- One normalized replacement step of the block loop along its primary
(non-fallback) path: used to state the clean-run characterization of the
loop. -/
def stepContent (content : List Char) (b : EditBlock) : List Char :=
  replaceWithLineEndingAwareness content b.searchText b.replaceText

/-- A run of blocks applies cleanly from the given content when, at each
step in order, the normalized search text occurs in the normalized working
content (so the primary branch of the loop is taken) and the replacement
changes the working content. -/
def blocksApplyCleanly : List Char → List EditBlock → Bool
  | _, [] => true
  | content, b :: rest =>
    containsSubstr (normalizeLineEndings content) (normalizeLineEndings b.searchText) &&
    (stepContent content b != content) &&
    blocksApplyCleanly (stepContent content b) rest

/-- The working content at the end of a clean run: the left fold of the
per-block replacement over the block list. -/
def cleanFinalContent : List Char → List EditBlock → List Char
  | content, [] => content
  | content, b :: rest => cleanFinalContent (stepContent content b) rest

/-- Outcome of one awaited external command of the version-control
collaborator: the promise either resolves or rejects. -/
inductive ExecOutcome where
  | success
  | failure
deriving DecidableEq

/-- Environment describing how the two git commands issued by
gitCommitBeforeRiskyAction behave for the current vault: the repository
probe (git rev-parse) and the stage-plus-commit compound command. -/
structure GitEnv where
  revParseInsideWorkTree : ExecOutcome
  addAllAndCommit : ExecOutcome
deriving DecidableEq

/-- gitCommitBeforeRiskyAction (ComposerTools.ts lines 25-49): probe for a
repository, then stage everything and commit with the fixed backup tag,
allowing an empty commit. The surrounding try/catch turns every failure of
either command into the Boolean result false, so the function is total and
never propagates an exception to its caller. -/
def gitCommitBeforeRiskyAction (env : GitEnv) : Bool :=
  match env.revParseInsideWorkTree with
  | .failure => false
  | .success =>
    match env.addAllAndCommit with
    | .failure => false
    | .success => true

/-- Association-list lookup in the document store (path to content). -/
def lookupAssoc : List (List Char × List Char) → List Char → Option (List Char)
  | [], _ => none
  | (k, v) :: rest, key => if k = key then some v else lookupAssoc rest key

/-- Removal of a path from the document store. -/
def removeAssoc : List (List Char × List Char) → List Char → List (List Char × List Char)
  | [], _ => []
  | (k, v) :: rest, key =>
    if k = key then removeAssoc rest key else (k, v) :: removeAssoc rest key

/-- Outcome of one deleteNote call (ComposerTools.ts lines 486-522). -/
inductive DeleteOutcome where
  | fileNotFound
  | deleted (gitBackup : Bool)
deriving DecidableEq

/-- The handler of deleteNoteTool (ComposerTools.ts lines 486-522) as a
state-passing function on the document store: missing files are rejected,
otherwise the best-effort backup commit runs first and the file is then
trashed regardless of the backup outcome; the result carries whether a
backup was created. -/
def deleteNote (env : GitEnv) (vault : List (List Char × List Char)) (path : List Char) :
    DeleteOutcome × List (List Char × List Char) :=
  match lookupAssoc vault path with
  | none => (.fileNotFound, vault)
  | some _ =>
    let gitBackup := gitCommitBeforeRiskyAction env
    (.deleted gitBackup, removeAssoc vault path)

/-- Outcome of one moveNote call (ComposerTools.ts lines 538-597). -/
inductive MoveOutcome where
  | sourceNotFound
  | destinationExists
  | moved (gitBackup : Bool)
deriving DecidableEq

/-- The handler of moveNoteTool (ComposerTools.ts lines 538-597) as a
state-passing function on the document store: missing source and occupied
destination are rejected, otherwise the best-effort backup commit runs
first and the rename proceeds regardless of the backup outcome. -/
def moveNote (env : GitEnv) (vault : List (List Char × List Char))
    (sourcePath destinationPath : List Char) : MoveOutcome × List (List Char × List Char) :=
  match lookupAssoc vault sourcePath with
  | none => (.sourceNotFound, vault)
  | some content =>
    match lookupAssoc vault destinationPath with
    | some _ => (.destinationExists, vault)
    | none =>
      let gitBackup := gitCommitBeforeRiskyAction env
      (.moved gitBackup, (destinationPath, content) :: removeAssoc vault sourcePath)

/-- The fixed backup tag carried by every automatic snapshot message
(ComposerTools.ts line 31). -/
def autoBackupTag : List Char := "[Auto-backup]".data

/-- One commit of the version-control collaborator: its hash, its subject
line, and the file tree it records (path to content). -/
structure Commit where
  hash : List Char
  subject : List Char
  files : List (List Char × List Char)
deriving DecidableEq

/-- Find a commit by hash in a history listed newest first, returning it
together with its parent (the next entry, if any). -/
def findCommitWithParent : List Commit → List Char → Option (Commit × Option Commit)
  | [], _ => none
  | c :: rest, h =>
    if c.hash = h then some (c, rest.head?) else findCommitWithParent rest h

/-- Outcome of one undoFileOperation call (ComposerTools.ts lines
696-752). -/
inductive UndoOutcome where
  | commitNotFound
  | notAutoBackupCommit
  | fileAlreadyExists
  | notFoundInHistory
  | recovered (recoveredPath fromCommit : List Char)
deriving DecidableEq

/-- The handler of undoFileOperationTool (ComposerTools.ts lines 696-752)
as a state-passing function on the document store, with the version
control collaborator modeled as a newest-first commit list: look up the
subject of the named commit, reject when it does not carry the backup tag,
reject when the path already exists in the store, then check out the path
from the parent of the named commit, the state recorded immediately
before the guarded destructive action. A missing parent or a path absent
from the parent tree surfaces as the checkout failure of the source. -/
def undoFileOperation (repo : List Commit) (vault : List (List Char × List Char))
    (commitHash filePath : List Char) : UndoOutcome × List (List Char × List Char) :=
  match findCommitWithParent repo commitHash with
  | none => (.commitNotFound, vault)
  | some (c, parent) =>
    if containsSubstr c.subject autoBackupTag then
      match lookupAssoc vault filePath with
      | some _ => (.fileAlreadyExists, vault)
      | none =>
        match parent with
        | none => (.notFoundInHistory, vault)
        | some p =>
          match lookupAssoc p.files filePath with
          | none => (.notFoundInHistory, vault)
          | some content => (.recovered filePath commitHash, (filePath, content) :: vault)
    else (.notAutoBackupCommit, vault)

/-- Padded document for the style-drift counterexample: predominantly CRLF
and long enough to pass the minimum-size gate of replaceInFile. -/
def c1Doc : List Char := List.replicate 3000 'x' ++ "a\r\nb".data

/-- Two-block run on c1Doc: the first block rewrites the whole document to
a text with no line break, the second then introduces a bare LF. Both
sides of both blocks are trim-stable, so they are possible parser
outputs. -/
def c1Blocks : List EditBlock :=
  [{ searchText := c1Doc, replaceText := "t".data },
   { searchText := "t".data, replaceText := "u\nv".data }]

/-- Padded document for the blocksApplied counterexample: long enough to
pass the minimum-size gate of replaceInFile. -/
def c2Doc : List Char := "abc".data ++ List.replicate 3000 'x'

/-- Single block whose replacement equals its search text. -/
def c2Blocks : List EditBlock := [{ searchText := "b".data, replaceText := "b".data }]

/-- Padded document for the failure-atomicity witness: long enough to pass
the minimum-size gate and not containing the letter q. -/
def c3Content : List Char := List.replicate 3000 'x'

/-- Instruction with one block whose search text q is absent from
c3Content. -/
def c3Diff : List Char := "------- SEARCH\nq\n=======\nz\n+++++++ REPLACE".data

/-- The end-to-end example document of the specification. -/
def c4Doc : List Char := "foo\nfoo\nbaz".data

/-- The end-to-end example instruction of the specification. -/
def c4Instr : List Char := "------- SEARCH\nfoo\n=======\nbar\n+++++++ REPLACE".data

/-- Minimal glued instruction whose single block has an empty search
text. -/
def c9Instr : List Char := "-------SEARCH=======bar+++++++REPLACE".data

/-- Example history: the initial commit recording the file content before
the destructive action. -/
def commitInit : Commit :=
  { hash := "a1".data, subject := "init".data,
    files := [("notes/a.md".data, "hello".data)] }

/-- Example history: the automatic backup snapshot guarding a delete. -/
def commitBackup : Commit :=
  { hash := "b2".data,
    subject := "[Auto-backup] Before deleting: notes/a.md".data,
    files := [] }

/-- Example history, newest first: the backup snapshot on top of the
initial commit. -/
def repoEx : List Commit := [commitBackup, commitInit]

/-- Example document store in which the deleted file is absent. -/
def vaultEx : List (List Char × List Char) := [("other.md".data, "x".data)]

/-- Example document store for the delete and move witnesses. -/
def vault8 : List (List Char × List Char) :=
  [("notes/a.md".data, "hello".data), ("b.md".data, "y".data)]

/-- Example environment in which the vault is not under version control:
the repository probe rejects. -/
def envNoRepo : GitEnv :=
  { revParseInsideWorkTree := .failure, addAllAndCommit := .success }

/-- Example environment in which the vault is a repository but the commit
command fails (for instance, nothing to commit without allow-empty, or any
other git error). -/
def envCommitFails : GitEnv :=
  { revParseInsideWorkTree := .success, addAllAndCommit := .failure }

theorem containsSubstr_self (s : List Char) : containsSubstr s s = true := by
  cases s with
  | nil => rfl
  | cons c rest =>
    simp only [containsSubstr, Bool.or_eq_true]
    left
    exact List.isPrefixOf_iff_prefix.mpr (List.prefix_refl _)

theorem containsSubstr_nil_needle (hay : List Char) : containsSubstr hay [] = true := by
  cases hay with
  | nil => rfl
  | cons c rest => simp [containsSubstr, List.isPrefixOf]

theorem mem_of_containsSubstr (hay needle : List Char)
    (h : containsSubstr hay needle = true) : ∀ c ∈ needle, c ∈ hay := by
  induction hay with
  | nil =>
    simp only [containsSubstr, List.isEmpty_iff] at h
    subst h
    simp
  | cons a rest ih =>
    simp only [containsSubstr, Bool.or_eq_true] at h
    intro c hc
    rcases h with h | h
    · exact (List.isPrefixOf_iff_prefix.mp h).subset hc
    · exact List.mem_cons_of_mem a (ih h c hc)

theorem replaceCrlfWithLf_noCr (s : List Char) (h : '\r' ∉ s) :
    replaceCrlfWithLf s = s := by
  induction s with
  | nil => rfl
  | cons c rest ih =>
    simp only [List.mem_cons, not_or] at h
    cases rest with
    | nil => rfl
    | cons c2 rest2 =>
      have hrec := ih h.2
      simp only [replaceCrlfWithLf]
      rw [if_neg (fun hh => h.1 hh.1.symm)]
      rw [hrec]

theorem replaceCrWithLf_noCr (s : List Char) (h : '\r' ∉ s) :
    replaceCrWithLf s = s := by
  induction s with
  | nil => rfl
  | cons c rest ih =>
    simp only [List.mem_cons, not_or] at h
    simp only [replaceCrWithLf, List.map_cons] at *
    rw [if_neg (fun hh => h.1 hh.symm), ih h.2]

theorem normalizeLineEndings_noCr (s : List Char) (h : '\r' ∉ s) :
    normalizeLineEndings s = s := by
  unfold normalizeLineEndings
  rw [replaceCrlfWithLf_noCr s h, replaceCrWithLf_noCr s h]

theorem noCr_replaceCrWithLf (s : List Char) : '\r' ∉ replaceCrWithLf s := by
  intro hmem
  simp only [replaceCrWithLf, List.mem_map] at hmem
  obtain ⟨a, _, ha⟩ := hmem
  by_cases h : a = '\r'
  · rw [if_pos h] at ha
    exact absurd ha (by decide)
  · rw [if_neg h] at ha
    exact h ha

theorem noCr_normalizeLineEndings (s : List Char) : '\r' ∉ normalizeLineEndings s :=
  noCr_replaceCrWithLf _

theorem noCr_interleaveRep (rep s : List Char) (hr : '\r' ∉ rep) (hs : '\r' ∉ s) :
    '\r' ∉ interleaveRep rep s := by
  induction s with
  | nil => simp [interleaveRep]
  | cons c cs ih =>
    simp only [List.mem_cons, not_or] at hs
    simp only [interleaveRep, List.mem_cons, List.mem_append, not_or]
    exact ⟨hs.1, hr, ih hs.2⟩

theorem noCr_replaceAllFuel (pat rep : List Char) (hr : '\r' ∉ rep) :
    ∀ fuel s, '\r' ∉ s → '\r' ∉ replaceAllFuel pat rep fuel s := by
  intro fuel
  induction fuel with
  | zero => intro s hs; exact hs
  | succ n ih =>
    intro s hs
    cases s with
    | nil => simp [replaceAllFuel]
    | cons c cs =>
      simp only [List.mem_cons, not_or] at hs
      simp only [replaceAllFuel]
      split
      · intro hmem
        rcases List.mem_append.mp hmem with h | h
        · exact hr h
        · exact ih _ (fun hd => hs.2 (List.mem_of_mem_drop hd)) h
      · intro hmem
        rcases List.mem_cons.mp hmem with h | h
        · exact hs.1 h
        · exact ih cs hs.2 h

theorem noCr_replaceAll (pat rep s : List Char) (hr : '\r' ∉ rep) (hs : '\r' ∉ s) :
    '\r' ∉ replaceAll pat rep s := by
  cases pat with
  | nil =>
    simp only [replaceAll, List.mem_append, not_or]
    exact ⟨hr, noCr_interleaveRep rep s hr hs⟩
  | cons p ps => exact noCr_replaceAllFuel _ _ hr _ _ hs

theorem lfToCrlf_cons (c : Char) (rest : List Char) :
    lfToCrlf (c :: rest) =
      if c = '\n' then '\r' :: '\n' :: lfToCrlf rest else c :: lfToCrlf rest := rfl

theorem countLoneLfAux_cons (prev c : Char) (rest : List Char) :
    countLoneLfAux prev (c :: rest) =
      (if c = '\n' ∧ prev ≠ '\r' then 1 else 0) + countLoneLfAux c rest := rfl

theorem countLoneLf_cons (c : Char) (rest : List Char) :
    countLoneLf (c :: rest) = (if c = '\n' then 1 else 0) + countLoneLfAux c rest := rfl

theorem countLoneLfAux_lfToCrlf (t : List Char) : ∀ prev, countLoneLfAux prev (lfToCrlf t) = 0 := by
  induction t with
  | nil => intro prev; rfl
  | cons c rest ih =>
    intro prev
    by_cases h : c = '\n'
    · subst h
      rw [lfToCrlf_cons, if_pos rfl, countLoneLfAux_cons,
        if_neg (fun hh => absurd hh.1 (by decide)), countLoneLfAux_cons,
        if_neg (fun hh => hh.2 rfl), ih]
    · rw [lfToCrlf_cons, if_neg h, countLoneLfAux_cons, if_neg (fun hh => h hh.1), ih]

theorem countLoneLf_lfToCrlf (t : List Char) : countLoneLf (lfToCrlf t) = 0 := by
  cases t with
  | nil => rfl
  | cons c rest =>
    by_cases h : c = '\n'
    · subst h
      rw [lfToCrlf_cons, if_pos rfl, countLoneLf_cons, if_neg (by decide),
        countLoneLfAux_cons, if_neg (fun hh => hh.2 rfl), countLoneLfAux_lfToCrlf]
    · rw [lfToCrlf_cons, if_neg h, countLoneLf_cons, if_neg h, countLoneLfAux_lfToCrlf]

theorem isPureCrlf_lfToCrlf (t : List Char) (h : '\r' ∉ t) : isPureCrlf (lfToCrlf t) = true := by
  induction t with
  | nil => rfl
  | cons c rest ih =>
    simp only [List.mem_cons, not_or] at h
    have hrec := ih h.2
    by_cases hc : c = '\n'
    · subst hc
      simp only [lfToCrlf, if_pos rfl]
      cases hrest : lfToCrlf rest with
      | nil => simp [isPureCrlf]
      | cons d ds =>
        rw [hrest] at hrec
        simp only [isPureCrlf, if_pos rfl]
        exact hrec
    · simp only [lfToCrlf, if_neg hc]
      have hcr : ¬(c = '\r') := fun hh => h.1 hh.symm
      cases hrest : lfToCrlf rest with
      | nil =>
        simp [isPureCrlf, hcr, hc]
      | cons d ds =>
        rw [hrest] at hrec
        simp only [isPureCrlf, if_neg hcr, if_neg hc]
        exact hrec

theorem isPureCrlf_one (c : Char) :
    isPureCrlf [c] = if c = '\r' then false else if c = '\n' then false else true := rfl

theorem isPureCrlf_two (c c2 : Char) (rest2 : List Char) :
    isPureCrlf (c :: c2 :: rest2) =
      if c = '\r' then
        if c2 = '\n' then isPureCrlf rest2 else false
      else if c = '\n' then false
      else isPureCrlf (c2 :: rest2) := rfl

theorem countCrlf_one (c : Char) : countCrlf [c] = 0 := rfl

theorem countCrlf_two (c c2 : Char) (rest2 : List Char) :
    countCrlf (c :: c2 :: rest2) =
      if c = '\r' ∧ c2 = '\n' then countCrlf rest2 + 1 else countCrlf (c2 :: rest2) := rfl

theorem replaceCrlfWithLf_one (c : Char) : replaceCrlfWithLf [c] = [c] := rfl

theorem replaceCrlfWithLf_two (c c2 : Char) (rest2 : List Char) :
    replaceCrlfWithLf (c :: c2 :: rest2) =
      if c = '\r' ∧ c2 = '\n' then '\n' :: replaceCrlfWithLf rest2
      else c :: replaceCrlfWithLf (c2 :: rest2) := rfl

theorem restoreStyle_true (s : List Char) : restoreStyle true s = lfToCrlf s := rfl

theorem restoreStyle_false (s : List Char) : restoreStyle false s = s := rfl

theorem countLoneLfAux_of_pure :
    ∀ x : List Char, isPureCrlf x = true → ∀ prev, countLoneLfAux prev x = 0
  | [], _, _ => rfl
  | [c], h, prev => by
    by_cases hr : c = '\r'
    · rw [isPureCrlf_one, if_pos hr] at h
      simp at h
    · by_cases hn : c = '\n'
      · rw [isPureCrlf_one, if_neg hr, if_pos hn] at h
        simp at h
      · rw [countLoneLfAux_cons, if_neg (fun hh => hn hh.1)]
        rfl
  | c :: c2 :: rest2, h, prev => by
    by_cases hr : c = '\r'
    · subst hr
      rw [isPureCrlf_two, if_pos rfl] at h
      by_cases hn : c2 = '\n'
      · subst hn
        rw [if_pos rfl] at h
        rw [countLoneLfAux_cons, if_neg (fun hh => absurd hh.1 (by decide)),
          countLoneLfAux_cons, if_neg (fun hh => hh.2 rfl),
          countLoneLfAux_of_pure rest2 h '\n']
      · rw [if_neg hn] at h
        simp at h
    · by_cases hn : c = '\n'
      · rw [isPureCrlf_two, if_neg hr, if_pos hn] at h
        simp at h
      · rw [isPureCrlf_two, if_neg hr, if_neg hn] at h
        rw [countLoneLfAux_cons, if_neg (fun hh => hn hh.1),
          countLoneLfAux_of_pure (c2 :: rest2) h c]

theorem countLoneLf_of_pure (x : List Char) (h : isPureCrlf x = true) : countLoneLf x = 0 := by
  match x with
  | [] => rfl
  | [c] =>
    by_cases hn : c = '\n'
    · rw [isPureCrlf_one] at h
      subst hn
      rw [if_neg (by decide), if_pos rfl] at h
      simp at h
    · rw [countLoneLf_cons, if_neg hn]
      rfl
  | c :: c2 :: rest2 =>
    by_cases hr : c = '\r'
    · subst hr
      rw [isPureCrlf_two, if_pos rfl] at h
      by_cases hn : c2 = '\n'
      · subst hn
        rw [if_pos rfl] at h
        rw [countLoneLf_cons, if_neg (by decide), countLoneLfAux_cons,
          if_neg (fun hh => hh.2 rfl), countLoneLfAux_of_pure rest2 h '\n']
      · rw [if_neg hn] at h
        simp at h
    · by_cases hn : c = '\n'
      · rw [isPureCrlf_two, if_neg hr, if_pos hn] at h
        simp at h
      · rw [isPureCrlf_two, if_neg hr, if_neg hn] at h
        rw [countLoneLf_cons, if_neg hn, countLoneLfAux_of_pure (c2 :: rest2) h c]

theorem pure_noCr_of_countCrlf_zero :
    ∀ x : List Char, isPureCrlf x = true → countCrlf x = 0 → '\r' ∉ x
  | [], _, _ => by simp
  | [c], h, _ => by
    by_cases hr : c = '\r'
    · rw [isPureCrlf_one, if_pos hr] at h
      simp at h
    · simp only [List.mem_singleton]
      exact fun hh => hr hh.symm
  | c :: c2 :: rest2, h, hcnt => by
    by_cases hr : c = '\r'
    · subst hr
      rw [isPureCrlf_two, if_pos rfl] at h
      by_cases hn : c2 = '\n'
      · rw [countCrlf_two, if_pos ⟨rfl, hn⟩] at hcnt
        simp at hcnt
      · rw [if_neg hn] at h
        simp at h
    · by_cases hn : c = '\n'
      · rw [isPureCrlf_two, if_neg hr, if_pos hn] at h
        simp at h
      · rw [isPureCrlf_two, if_neg hr, if_neg hn] at h
        rw [countCrlf_two, if_neg (fun hh => hr hh.1)] at hcnt
        have hrec := pure_noCr_of_countCrlf_zero (c2 :: rest2) h hcnt
        simp only [List.mem_cons, not_or] at hrec ⊢
        exact ⟨fun hh => hr hh.symm, hrec⟩

theorem lfToCrlf_normalize_of_pure :
    ∀ x : List Char, isPureCrlf x = true → lfToCrlf (normalizeLineEndings x) = x
  | [], _ => rfl
  | [c], h => by
    by_cases hr : c = '\r'
    · rw [isPureCrlf_one, if_pos hr] at h
      simp at h
    · by_cases hn : c = '\n'
      · rw [isPureCrlf_one, if_neg hr, if_pos hn] at h
        simp at h
      · unfold normalizeLineEndings
        rw [replaceCrlfWithLf_one]
        unfold replaceCrWithLf
        rw [List.map_cons, List.map_nil, if_neg hr, lfToCrlf_cons, if_neg hn]
        rfl
  | c :: c2 :: rest2, h => by
    by_cases hr : c = '\r'
    · subst hr
      rw [isPureCrlf_two, if_pos rfl] at h
      by_cases hn : c2 = '\n'
      · subst hn
        rw [if_pos rfl] at h
        unfold normalizeLineEndings
        rw [replaceCrlfWithLf_two, if_pos ⟨rfl, rfl⟩]
        unfold replaceCrWithLf
        rw [List.map_cons, if_neg (by decide)]
        rw [lfToCrlf_cons, if_pos rfl]
        have hrec := lfToCrlf_normalize_of_pure rest2 h
        unfold normalizeLineEndings replaceCrWithLf at hrec
        rw [hrec]
      · rw [if_neg hn] at h
        simp at h
    · by_cases hn : c = '\n'
      · rw [isPureCrlf_two, if_neg hr, if_pos hn] at h
        simp at h
      · rw [isPureCrlf_two, if_neg hr, if_neg hn] at h
        unfold normalizeLineEndings
        rw [replaceCrlfWithLf_two, if_neg (fun hh => hr hh.1)]
        unfold replaceCrWithLf
        rw [List.map_cons, if_neg hr, lfToCrlf_cons, if_neg hn]
        have hrec := lfToCrlf_normalize_of_pure (c2 :: rest2) h
        unfold normalizeLineEndings replaceCrWithLf at hrec
        rw [hrec]

theorem countCrlf_noCr (s : List Char) (h : '\r' ∉ s) : countCrlf s = 0 := by
  induction s with
  | nil => rfl
  | cons c rest ih =>
    simp only [List.mem_cons, not_or] at h
    cases rest with
    | nil => rfl
    | cons c2 rest2 =>
      rw [countCrlf_two, if_neg (fun hh => h.1 hh.1.symm)]
      exact ih h.2

theorem countLoneLfAux_noLf (prev : Char) (s : List Char) (h : '\n' ∉ s) :
    countLoneLfAux prev s = 0 := by
  induction s generalizing prev with
  | nil => rfl
  | cons c rest ih =>
    simp only [List.mem_cons, not_or] at h
    rw [countLoneLfAux_cons, if_neg (fun hh => h.1 hh.1.symm), ih c h.2]

theorem countLoneLf_noLf (s : List Char) (h : '\n' ∉ s) : countLoneLf s = 0 := by
  cases s with
  | nil => rfl
  | cons c rest =>
    simp only [List.mem_cons, not_or] at h
    rw [countLoneLf_cons, if_neg (fun hh => h.1 hh.symm), countLoneLfAux_noLf c rest h.2]

theorem detectUsesCrlf_eq_true (content : List Char)
    (h : countLoneLf content < countCrlf content) : detectUsesCrlf content = true := by
  unfold detectUsesCrlf
  exact decide_eq_true h

theorem detectUsesCrlf_eq_false (content : List Char)
    (h : ¬ countLoneLf content < countCrlf content) : detectUsesCrlf content = false := by
  unfold detectUsesCrlf
  exact decide_eq_false h

/-- C6: for every text using a single consistent line-ending convention
(consistently CRLF, or LF with no CR at all), normalizing and then
restoring with the style detected from the original text reproduces the
text exactly. -/
theorem claimC6_thm (x : List Char) (h : isPureCrlf x = true ∨ '\r' ∉ x) :
    restoreStyle (detectUsesCrlf x) (normalizeLineEndings x) = x := by
  rcases h with hpure | hnoCr
  · by_cases hc : countCrlf x = 0
    · have hdet : detectUsesCrlf x = false :=
        detectUsesCrlf_eq_false x (by rw [hc]; exact Nat.not_lt_zero _)
      rw [hdet, restoreStyle_false]
      exact normalizeLineEndings_noCr x (pure_noCr_of_countCrlf_zero x hpure hc)
    · have hdet : detectUsesCrlf x = true :=
        detectUsesCrlf_eq_true x
          (by rw [countLoneLf_of_pure x hpure]; exact Nat.pos_of_ne_zero hc)
      rw [hdet, restoreStyle_true]
      exact lfToCrlf_normalize_of_pure x hpure
  · have h0 : countCrlf x = 0 := countCrlf_noCr x hnoCr
    have hdet : detectUsesCrlf x = false :=
      detectUsesCrlf_eq_false x (by rw [h0]; exact Nat.not_lt_zero _)
    rw [hdet, restoreStyle_false]
    exact normalizeLineEndings_noCr x hnoCr

/-- C6 witness: the round trip at a concrete consistently-CRLF text. -/
theorem claimC6_wit :
    (isPureCrlf "a\r\nb\r\n".data = true ∨ '\r' ∉ "a\r\nb\r\n".data) ∧
    restoreStyle (detectUsesCrlf "a\r\nb\r\n".data)
      (normalizeLineEndings "a\r\nb\r\n".data) = "a\r\nb\r\n".data :=
  ⟨Or.inl (by decide), claimC6_thm _ (Or.inl (by decide))⟩

theorem pureCrlf_replaceAware (content s r : List Char)
    (h : detectUsesCrlf content = true) :
    isPureCrlf (replaceWithLineEndingAwareness content s r) = true := by
  simp only [replaceWithLineEndingAwareness]
  rw [h, restoreStyle_true]
  exact isPureCrlf_lfToCrlf _
    (noCr_replaceAll _ _ _ (noCr_normalizeLineEndings r) (noCr_normalizeLineEndings content))

/-- C10: whenever CRLF is the detected predominant style of the input
content, the output of one line-ending-aware replacement has every line
terminator equal to CRLF; in particular it contains no LF that is not
preceded by CR, whatever the search and replace texts are and wherever
they do or do not occur. -/
theorem claimC10_thm (content s r : List Char) (h : detectUsesCrlf content = true) :
    isPureCrlf (replaceWithLineEndingAwareness content s r) = true ∧
    countLoneLf (replaceWithLineEndingAwareness content s r) = 0 :=
  ⟨pureCrlf_replaceAware content s r h,
    countLoneLf_of_pure _ (pureCrlf_replaceAware content s r h)⟩

/-- C10 witness: a concrete predominantly-CRLF content with one bare LF;
the replacement leaves the searched text untouched (the search text is
absent) yet the output is pure CRLF. -/
theorem claimC10_wit :
    detectUsesCrlf "a\r\nb\nc\r\nd\r\n".data = true ∧
    isPureCrlf (replaceWithLineEndingAwareness "a\r\nb\nc\r\nd\r\n".data "q".data "w".data)
      = true ∧
    countLoneLf (replaceWithLineEndingAwareness "a\r\nb\nc\r\nd\r\n".data "q".data "w".data)
      = 0 :=
  ⟨by decide, (claimC10_thm _ "q".data "w".data (by decide)).1,
    (claimC10_thm _ "q".data "w".data (by decide)).2⟩

theorem applyBlocksLoop_nil (content : List Char) (n : Nat) :
    applyBlocksLoop content n [] = .ok content n := rfl

theorem applyBlocksLoop_cons (content : List Char) (n : Nat) (b : EditBlock)
    (rest : List EditBlock) :
    applyBlocksLoop content n (b :: rest) =
      if containsSubstr (normalizeLineEndings content) (normalizeLineEndings b.searchText) then
        applyBlocksLoop (replaceWithLineEndingAwareness content b.searchText b.replaceText)
          (if replaceWithLineEndingAwareness content b.searchText b.replaceText = content
           then n else n + 1) rest
      else if containsSubstr (normalizeLineEndings content)
          (jsTrimEnd (normalizeLineEndings b.searchText)) then
        applyBlocksLoop
          (replaceWithLineEndingAwareness content (jsTrimEnd b.searchText)
            (jsTrimEnd b.replaceText))
          (if replaceWithLineEndingAwareness content (jsTrimEnd b.searchText)
              (jsTrimEnd b.replaceText) = content
           then n else n + 1) rest
      else .notFound b.searchText := rfl

/-- C1 (amended): the line-ending style is recomputed inside every block
application from the current working content and restoration happens per
block, not once at the end of the run; consequently, for a single-block
apply whose original content is predominantly CRLF, the output has pure
CRLF line terminators, while with several blocks the style detected from
the original document need not govern the final output (see the
counterexample). -/
theorem claimC1_thm (content : List Char) (b : EditBlock) (out : List Char) (n : Nat)
    (hdet : detectUsesCrlf content = true)
    (hrun : applyBlocksLoop content 0 [b] = .ok out n) :
    isPureCrlf out = true ∧ countLoneLf out = 0 := by
  rw [applyBlocksLoop_cons] at hrun
  split at hrun
  · rw [applyBlocksLoop_nil] at hrun
    injection hrun with h1 h2
    subst h1
    exact ⟨pureCrlf_replaceAware _ _ _ hdet,
      countLoneLf_of_pure _ (pureCrlf_replaceAware _ _ _ hdet)⟩
  · split at hrun
    · rw [applyBlocksLoop_nil] at hrun
      injection hrun with h1 h2
      subst h1
      exact ⟨pureCrlf_replaceAware _ _ _ hdet,
        countLoneLf_of_pure _ (pureCrlf_replaceAware _ _ _ hdet)⟩
    · exact absurd hrun (by simp)

/-- C1 witness: a concrete single-block apply on a predominantly-CRLF
document; the output follows the CRLF style detected from that document
(its bare LF is even converted). -/
theorem claimC1_wit :
    isPureCrlf "a\r\nz\r\nc\r\nd\r\n".data = true ∧
    countLoneLf "a\r\nz\r\nc\r\nd\r\n".data = 0 :=
  claimC1_thm "a\r\nb\nc\r\nd\r\n".data
    { searchText := "b".data, replaceText := "z".data }
    "a\r\nz\r\nc\r\nd\r\n".data 1 (by decide) (by decide)

set_option maxRecDepth 10000 in
/-- C4 counterexample: the end-to-end example of the specification does
not hold through the replaceInFile handler, because the eleven-character
document is rejected by the minimum-size gate before any parsing: the call
returns the too-small rejection with the store unchanged, not an accepted
candidate with one applied block. -/
theorem claimC4_cex :
    replaceInFileRun c4Doc c4Instr true = (.fileTooSmall, c4Doc) ∧
    (ToolOutcome.fileTooSmall ≠ ToolOutcome.accepted 1) := by
  exact ⟨by decide, by decide⟩

set_option maxRecDepth 10000 in
/-- C4 (amended): the instruction parses to exactly one block with search
text foo and replace text bar, and the apply loop on the stored document
yields the candidate with both occurrences replaced and one block counted;
the full handler, however, rejects this document at the minimum-size gate
because it is far below 3000 characters. -/
theorem claimC4_thm :
    parseSearchReplaceBlocks c4Instr =
      [{ searchText := "foo".data, replaceText := "bar".data }] ∧
    applyBlocksLoop c4Doc 0 (parseSearchReplaceBlocks c4Instr) =
      .ok "bar\nbar\nbaz".data 1 ∧
    replaceInFileRun c4Doc c4Instr true = (.fileTooSmall, c4Doc) := by
  exact ⟨by decide, by decide, by decide⟩

/-- C5: a document below the fixed minimum size is rejected with the
too-small outcome and an unchanged store, whatever the instruction text
and the confirmation mode are (the instruction is never parsed), and the
rejection message steers the caller toward the whole-file write tool. -/
theorem claimC5_thm (content diff : List Char) (autoAcceptEdits : Bool)
    (h : content.length < MIN_FILE_SIZE_FOR_REPLACE) :
    replaceInFileRun content diff autoAcceptEdits = (.fileTooSmall, content) ∧
    containsSubstr fileTooSmallMessage "writeToFile".data = true := by
  constructor
  · simp only [replaceInFileRun, if_pos h]
  · decide

/-- C5 witness: the gate at a concrete four-character document. -/
theorem claimC5_wit :
    "tiny".data.length < MIN_FILE_SIZE_FOR_REPLACE ∧
    (replaceInFileRun "tiny".data "------- SEARCH\nq\n=======\nz\n+++++++ REPLACE".data false
        = (.fileTooSmall, "tiny".data) ∧
      containsSubstr fileTooSmallMessage "writeToFile".data = true) :=
  ⟨by decide, claimC5_thm _ _ _ (by decide)⟩

theorem applyBlocksLoop_empty_search (content r : List Char) :
    applyBlocksLoop content 0 [{ searchText := [], replaceText := r }] =
      .ok (replaceWithLineEndingAwareness content [] r)
        (if replaceWithLineEndingAwareness content [] r = content then 0 else 1) := by
  have hc : containsSubstr (normalizeLineEndings content)
      (normalizeLineEndings ([] : List Char)) = true := containsSubstr_nil_needle _
  rw [applyBlocksLoop_cons, if_pos hc, applyBlocksLoop_nil]

set_option maxRecDepth 10000 in
/-- C9: a glued instruction whose block content before the separator is
empty parses to a block with empty search text; the apply loop treats the
empty search text as matched for every content (the empty string occurs
in every string), and the replacement is inserted at every character
boundary of the document, including before the first and after the last
character, as the concrete run shows. -/
theorem claimC9_thm :
    parseSearchReplaceBlocks c9Instr = [{ searchText := [], replaceText := "bar".data }] ∧
    (∀ content r, ∃ final n,
      applyBlocksLoop content 0 [{ searchText := [], replaceText := r }] = .ok final n) ∧
    applyBlocksLoop "ab".data 0 (parseSearchReplaceBlocks c9Instr) =
      .ok "barabarbbar".data 1 := by
  refine ⟨by decide, ?_, by decide⟩
  intro content r
  exact ⟨_, _, applyBlocksLoop_empty_search content r⟩

/-- C7: for every recovery request, when the named snapshot exists its
handling satisfies all three guarantees: a snapshot whose message lacks
the backup tag is rejected with the store unmodified; a request whose
target path already exists in the store is rejected with the store
unmodified; otherwise the content recorded for the path at the parent of
the snapshot, the state immediately before the guarded destructive
action, is restored into the store at that path. -/
theorem claimC7_thm (repo : List Commit) (vault : List (List Char × List Char))
    (h fp : List Char) (c : Commit) (par : Option Commit)
    (hfind : findCommitWithParent repo h = some (c, par)) :
    (containsSubstr c.subject autoBackupTag = false →
      undoFileOperation repo vault h fp = (.notAutoBackupCommit, vault)) ∧
    (∀ old, containsSubstr c.subject autoBackupTag = true →
      lookupAssoc vault fp = some old →
      undoFileOperation repo vault h fp = (.fileAlreadyExists, vault)) ∧
    (∀ p content, containsSubstr c.subject autoBackupTag = true →
      lookupAssoc vault fp = none → par = some p →
      lookupAssoc p.files fp = some content →
      undoFileOperation repo vault h fp = (.recovered fp h, (fp, content) :: vault)) := by
  refine ⟨?_, ?_, ?_⟩
  · intro htag
    simp only [undoFileOperation, hfind, htag]
    rfl
  · intro old htag hlook
    simp only [undoFileOperation, hfind, htag, hlook]
    rfl
  · intro p content htag hlook hpar hfile
    subst hpar
    simp only [undoFileOperation, hfind, htag, hlook, hfile]
    rfl

/-- C7 witness: a concrete two-commit history in which the backup snapshot
guards a delete; recovery restores the content recorded at the parent
commit. -/
theorem claimC7_wit :
    undoFileOperation repoEx vaultEx "b2".data "notes/a.md".data =
      (.recovered "notes/a.md".data "b2".data,
        ("notes/a.md".data, "hello".data) :: vaultEx) :=
  (claimC7_thm repoEx vaultEx "b2".data "notes/a.md".data commitBackup (some commitInit)
      (by decide)).2.2 commitInit "hello".data (by decide) (by decide) rfl (by decide)

/-- C8: whenever the target root is not under version control or the
backup commit fails for any reason, the backup step returns false (its
try/catch never lets the failure escape), and the primary destructive
action of both deleteNote and moveNote still proceeds and succeeds, with
the result reporting that no backup was created. -/
theorem claimC8_thm (env : GitEnv) (vault : List (List Char × List Char))
    (path src dst : List Char)
    (henv : env.revParseInsideWorkTree = .failure ∨ env.addAllAndCommit = .failure) :
    gitCommitBeforeRiskyAction env = false ∧
    (∀ c, lookupAssoc vault path = some c →
      deleteNote env vault path = (.deleted false, removeAssoc vault path)) ∧
    (∀ c, lookupAssoc vault src = some c → lookupAssoc vault dst = none →
      moveNote env vault src dst = (.moved false, (dst, c) :: removeAssoc vault src)) := by
  have hfalse : gitCommitBeforeRiskyAction env = false := by
    unfold gitCommitBeforeRiskyAction
    rcases henv with hh | hh
    · rw [hh]
    · cases hrev : env.revParseInsideWorkTree with
      | failure => rfl
      | success => rw [hh]
  refine ⟨hfalse, ?_, ?_⟩
  · intro c hc
    simp only [deleteNote, hc, hfalse]
  · intro c hc hd
    simp only [moveNote, hc, hd, hfalse]

/-- C8 witness: deleting and moving with no repository present succeeds
with no backup reported; the same conclusion follows when the commit
command itself fails. -/
theorem claimC8_wit :
    (envNoRepo.revParseInsideWorkTree = .failure ∨ envNoRepo.addAllAndCommit = .failure) ∧
    gitCommitBeforeRiskyAction envNoRepo = false ∧
    deleteNote envNoRepo vault8 "notes/a.md".data =
      (.deleted false, removeAssoc vault8 "notes/a.md".data) ∧
    moveNote envCommitFails vault8 "b.md".data "c.md".data =
      (.moved false, ("c.md".data, "y".data) :: removeAssoc vault8 "b.md".data) :=
  ⟨Or.inl rfl,
    (claimC8_thm envNoRepo vault8 "notes/a.md".data "b.md".data "c.md".data
      (Or.inl rfl)).1,
    (claimC8_thm envNoRepo vault8 "notes/a.md".data "b.md".data "c.md".data
      (Or.inl rfl)).2.1 "hello".data (by decide),
    (claimC8_thm envCommitFails vault8 "notes/a.md".data "b.md".data "c.md".data
      (Or.inr rfl)).2.2 "y".data (by decide) (by decide)⟩

theorem containsSubstr_cons (c : Char) (rest needle : List Char) :
    containsSubstr (c :: rest) needle =
      (needle.isPrefixOf (c :: rest) || containsSubstr rest needle) := rfl

theorem replaceAllFuel_nil (pat rep : List Char) : ∀ fuel, replaceAllFuel pat rep fuel [] = [] := by
  intro fuel
  cases fuel <;> rfl

theorem replaceAll_self_pattern (p : Char) (ps rep : List Char) :
    replaceAll (p :: ps) rep (p :: ps) = rep := by
  show replaceAllFuel (p :: ps) rep (p :: ps).length (p :: ps) = rep
  rw [List.length_cons]
  simp only [replaceAllFuel]
  rw [if_pos (List.isPrefixOf_iff_prefix.mpr (List.prefix_refl _))]
  rw [List.length_cons, Nat.add_sub_cancel, List.drop_length, replaceAllFuel_nil,
    List.append_nil]

theorem replaceAllFuel_same (p : Char) (ps : List Char) :
    ∀ fuel s, replaceAllFuel (p :: ps) (p :: ps) fuel s = s := by
  intro fuel
  induction fuel with
  | zero => intro s; rfl
  | succ f ih =>
    intro s
    cases s with
    | nil => rfl
    | cons c cs =>
      simp only [replaceAllFuel]
      split
      · next hpre =>
        obtain ⟨t, ht⟩ := List.isPrefixOf_iff_prefix.mp hpre
        rw [List.cons_append] at ht
        injection ht with hc hcs
        subst hc
        rw [← hcs, List.length_cons, Nat.add_sub_cancel, List.drop_left, ih t,
          List.cons_append, hcs]
      · next hpre => rw [ih cs]

theorem replaceAll_same (p : Char) (ps s : List Char) :
    replaceAll (p :: ps) (p :: ps) s = s :=
  replaceAllFuel_same p ps s.length s

theorem countCrlf_append_noCr (l1 l2 : List Char) (h : '\r' ∉ l1) :
    countCrlf (l1 ++ l2) = countCrlf l2 := by
  induction l1 with
  | nil => rfl
  | cons c l1x ih =>
    simp only [List.mem_cons, not_or] at h
    rw [List.cons_append]
    cases hl : l1x ++ l2 with
    | nil =>
      rw [(List.append_eq_nil.mp hl).2]
      rfl
    | cons d restx =>
      rw [countCrlf_two, if_neg (fun hh => h.1 hh.1.symm), ← hl]
      exact ih h.2

theorem replaceCrlfWithLf_append_noCr (l1 l2 : List Char) (h : '\r' ∉ l1) :
    replaceCrlfWithLf (l1 ++ l2) = l1 ++ replaceCrlfWithLf l2 := by
  induction l1 with
  | nil => rfl
  | cons c l1x ih =>
    simp only [List.mem_cons, not_or] at h
    rw [List.cons_append]
    cases hl : l1x ++ l2 with
    | nil =>
      obtain ⟨h1x, h2⟩ := List.append_eq_nil.mp hl
      subst h1x
      subst h2
      rfl
    | cons d restx =>
      rw [replaceCrlfWithLf_two, if_neg (fun hh => h.1 hh.1.symm), ← hl, ih h.2]
      rfl

theorem replaceCrWithLf_append (a b : List Char) :
    replaceCrWithLf (a ++ b) = replaceCrWithLf a ++ replaceCrWithLf b := by
  simp [replaceCrWithLf]

theorem normalizeLineEndings_append_noCr (l1 l2 : List Char) (h : '\r' ∉ l1) :
    normalizeLineEndings (l1 ++ l2) = l1 ++ normalizeLineEndings l2 := by
  unfold normalizeLineEndings
  rw [replaceCrlfWithLf_append_noCr l1 l2 h, replaceCrWithLf_append,
    replaceCrWithLf_noCr l1 h]

theorem countLoneLfAux_x_replicate_append (t : List Char) :
    ∀ n, countLoneLfAux 'x' (List.replicate n 'x' ++ t) = countLoneLfAux 'x' t := by
  intro n
  induction n with
  | zero => rfl
  | succ m ih =>
    rw [List.replicate_succ, List.cons_append, countLoneLfAux_cons,
      if_neg (fun hh => absurd hh.1 (by decide)), ih]
    exact Nat.zero_add _

theorem applyBlocksLoop_clean :
    ∀ (blocks : List EditBlock) (content : List Char) (n : Nat),
      blocksApplyCleanly content blocks = true →
      applyBlocksLoop content n blocks =
        .ok (cleanFinalContent content blocks) (n + blocks.length)
  | [], content, n, _ => by
    rw [applyBlocksLoop_nil]
    rfl
  | b :: rest, content, n, h => by
    simp only [blocksApplyCleanly, Bool.and_eq_true, bne_iff_ne] at h
    obtain ⟨⟨h1, h2⟩, h3⟩ := h
    have h2x : replaceWithLineEndingAwareness content b.searchText b.replaceText ≠ content := h2
    rw [applyBlocksLoop_cons, if_pos h1, if_neg h2x]
    have hrec := applyBlocksLoop_clean rest (stepContent content b) (n + 1) h3
    unfold stepContent at hrec
    rw [hrec]
    have harith : n + 1 + rest.length = n + (b :: rest).length := by
      rw [List.length_cons]
      omega
    rw [harith]
    rfl

/-- C2 (amended): applying the blocks in order performs, at each step, a
replace-all of that block's normalized search text by its normalized
replacement on the current working content; provided every block's
normalized search text is present in the working content at the moment its
block is applied and every replacement changes the content, the run
succeeds with the folded final content and blocksApplied equal to N. The
hypotheses of the original claim (non-overlapping blocks, pairwise
non-substring search texts, all present in the original document) do not
suffice: a block whose replacement leaves the content unchanged is not
counted (see the counterexample). -/
theorem claimC2_thm (content : List Char) (blocks : List EditBlock)
    (h : blocksApplyCleanly content blocks = true) :
    applyBlocksLoop content 0 blocks =
      .ok (cleanFinalContent content blocks) blocks.length := by
  have := applyBlocksLoop_clean blocks content 0 h
  rwa [Nat.zero_add] at this

/-- C2 witness: two blocks, each present when its turn comes and each
changing the content; both occurrences are replaced and blocksApplied is
two. -/
theorem claimC2_wit :
    blocksApplyCleanly "abcd".data
      [{ searchText := "a".data, replaceText := "x".data },
       { searchText := "c".data, replaceText := "y".data }] = true ∧
    applyBlocksLoop "abcd".data 0
      [{ searchText := "a".data, replaceText := "x".data },
       { searchText := "c".data, replaceText := "y".data }] =
      .ok (cleanFinalContent "abcd".data
        [{ searchText := "a".data, replaceText := "x".data },
         { searchText := "c".data, replaceText := "y".data }]) 2 :=
  ⟨by decide, claimC2_thm "abcd".data _ (by decide)⟩

/-- C2 counterexample: a single block (so non-overlapping occurrences and
the pairwise non-substring condition hold vacuously) whose search text is
present in the document, on a document above the minimum-size gate; its
replacement text equals its search text, the content does not change, and
the reported blocksApplied is zero, not N = 1. -/
theorem claimC2_cex :
    containsSubstr (normalizeLineEndings c2Doc)
      (normalizeLineEndings ("b".data)) = true ∧
    applyBlocksLoop c2Doc 0 c2Blocks = .ok c2Doc 0 ∧
    (0 : Nat) ≠ c2Blocks.length := by
  have hnoCr : '\r' ∉ c2Doc := by
    intro hm
    rcases List.mem_append.mp hm with hm1 | hm2
    · exact absurd hm1 (by decide)
    · rw [List.mem_replicate] at hm2
      exact absurd hm2.2 (by decide)
  have hnoLf : '\n' ∉ c2Doc := by
    intro hm
    rcases List.mem_append.mp hm with hm1 | hm2
    · exact absurd hm1 (by decide)
    · rw [List.mem_replicate] at hm2
      exact absurd hm2.2 (by decide)
  have hnorm : normalizeLineEndings c2Doc = c2Doc := normalizeLineEndings_noCr _ hnoCr
  have hdet : detectUsesCrlf c2Doc = false := by
    apply detectUsesCrlf_eq_false
    rw [countCrlf_noCr _ hnoCr]
    exact Nat.not_lt_zero _
  have hcontains : containsSubstr c2Doc (normalizeLineEndings ("b".data)) = true := by
    rw [show c2Doc = 'a' :: 'b' :: 'c' :: List.replicate 3000 'x' from rfl,
      containsSubstr_cons, containsSubstr_cons]
    simp only [Bool.or_eq_true]
    right
    left
    decide
  have hstep : replaceWithLineEndingAwareness c2Doc ("b".data) ("b".data) = c2Doc := by
    simp only [replaceWithLineEndingAwareness]
    rw [hdet, restoreStyle_false, hnorm]
    exact replaceAll_same 'b' [] c2Doc
  refine ⟨by rw [hnorm]; exact hcontains, ?_, by decide⟩
  rw [show c2Blocks = { searchText := "b".data, replaceText := "b".data } :: [] from rfl,
    applyBlocksLoop_cons, hnorm]
  rw [if_pos hcontains, hstep, if_pos rfl, applyBlocksLoop_nil]

/-- C1 counterexample: a document of 3004 characters (above the
minimum-size gate) whose detected style is CRLF; the first block rewrites
the whole document to a short text with no line break, the second block
then inserts a bare LF. Both blocks apply (blocksApplied is two), yet the
final content contains an LF not preceded by CR: the style used for each
restoration was recomputed per block from the working content, so the
style detected from the original document does not govern the final
output. -/
theorem claimC1_cex :
    detectUsesCrlf c1Doc = true ∧
    applyBlocksLoop c1Doc 0 c1Blocks = .ok "u\nv".data 2 ∧
    countLoneLf "u\nv".data ≠ 0 := by
  have hpadNoCr : '\r' ∉ List.replicate 3000 'x' := by
    intro hm
    rw [List.mem_replicate] at hm
    exact absurd hm.2 (by decide)
  have hcrlf : countCrlf c1Doc = 1 := by
    show countCrlf (List.replicate 3000 'x' ++ "a\r\nb".data) = 1
    rw [countCrlf_append_noCr _ _ hpadNoCr]
    decide
  have hlone : countLoneLf c1Doc = 0 := by
    show countLoneLf ('x' :: (List.replicate 2999 'x' ++ "a\r\nb".data)) = 0
    rw [countLoneLf_cons, if_neg (by decide), countLoneLfAux_x_replicate_append]
    decide
  have hdet : detectUsesCrlf c1Doc = true :=
    detectUsesCrlf_eq_true _ (by rw [hcrlf, hlone]; decide)
  have hnormC : normalizeLineEndings c1Doc =
      'x' :: (List.replicate 2999 'x' ++ "a\nb".data) := by
    have h1 : normalizeLineEndings (List.replicate 3000 'x' ++ "a\r\nb".data) =
        List.replicate 3000 'x' ++ normalizeLineEndings "a\r\nb".data :=
      normalizeLineEndings_append_noCr _ _ hpadNoCr
    have h2 : normalizeLineEndings "a\r\nb".data = "a\nb".data := by decide
    rw [h2] at h1
    exact h1.trans (by rfl)
  have hstep1 : replaceWithLineEndingAwareness c1Doc c1Doc "t".data = "t".data := by
    simp only [replaceWithLineEndingAwareness]
    rw [hdet, restoreStyle_true, hnormC, replaceAll_self_pattern]
    decide
  have hlen : c1Doc.length = 3004 := by
    show (List.replicate 3000 'x' ++ "a\r\nb".data).length = 3004
    rw [List.length_append, List.length_replicate]
    rfl
  have hneq : ¬(("t".data : List Char) = c1Doc) := by
    intro hh
    have hl := congrArg List.length hh
    rw [hlen] at hl
    exact absurd hl (by decide)
  refine ⟨hdet, ?_, by decide⟩
  rw [show c1Blocks =
      { searchText := c1Doc, replaceText := "t".data } ::
        [{ searchText := "t".data, replaceText := "u\nv".data }] from rfl,
    applyBlocksLoop_cons,
    if_pos (containsSubstr_self (normalizeLineEndings c1Doc)),
    hstep1, if_neg hneq]
  decide

theorem applyBlocksLoop_notFound_mem :
    ∀ (blocks : List EditBlock) (content : List Char) (n : Nat) (s : List Char),
      applyBlocksLoop content n blocks = .notFound s →
      ∃ pre b post, blocks = pre ++ b :: post ∧ b.searchText = s
  | [], content, n, s, h => by
    rw [applyBlocksLoop_nil] at h
    exact absurd h (by simp)
  | b :: rest, content, n, s, h => by
    rw [applyBlocksLoop_cons] at h
    split at h
    · obtain ⟨pre, bx, post, hb, hs⟩ := applyBlocksLoop_notFound_mem rest _ _ s h
      exact ⟨b :: pre, bx, post, by rw [hb]; rfl, hs⟩
    · split at h
      · obtain ⟨pre, bx, post, hb, hs⟩ := applyBlocksLoop_notFound_mem rest _ _ s h
        exact ⟨b :: pre, bx, post, by rw [hb]; rfl, hs⟩
      · injection h with hs
        exact ⟨[], b, rest, rfl, hs⟩

/-- C3: when the block loop aborts because some block's normalized search
text is absent from the working content even after the trailing-whitespace
fallback, the whole call returns the failure naming the search text of one
of the parsed blocks, and the stored document after the call is
byte-identical to the content before it, whatever the confirmation mode:
no effect of any block, including earlier matched blocks of the same call,
is persisted. -/
theorem claimC3_thm (content diff : List Char) (autoAcceptEdits : Bool) (s : List Char)
    (hsize : ¬ content.length < MIN_FILE_SIZE_FOR_REPLACE)
    (hblocks : ¬ (parseSearchReplaceBlocks diff).length = 0)
    (herr : applyBlocksLoop content 0 (parseSearchReplaceBlocks diff) = .notFound s) :
    replaceInFileRun content diff autoAcceptEdits = (.searchTextNotFound s, content) ∧
    ∃ pre b post, parseSearchReplaceBlocks diff = pre ++ b :: post ∧ b.searchText = s := by
  constructor
  · simp only [replaceInFileRun, if_neg hsize, if_neg hblocks, herr]
  · exact applyBlocksLoop_notFound_mem _ _ _ _ herr

/-- C3 witness: a 3000-character document that does not contain the
letter q, and an instruction whose single block searches for q; the call
fails naming q and the stored content is unchanged. -/
theorem claimC3_wit :
    replaceInFileRun c3Content c3Diff false = (.searchTextNotFound "q".data, c3Content) ∧
    ∃ pre b post, parseSearchReplaceBlocks c3Diff = pre ++ b :: post ∧
      b.searchText = "q".data := by
  have hparse : parseSearchReplaceBlocks c3Diff =
      [{ searchText := "q".data, replaceText := "z".data }] := by decide
  have hnoCr3 : '\r' ∉ c3Content := by
    intro hm
    rw [show c3Content = List.replicate 3000 'x' from rfl, List.mem_replicate] at hm
    exact absurd hm.2 (by decide)
  have hnorm3 : normalizeLineEndings c3Content = c3Content :=
    normalizeLineEndings_noCr _ hnoCr3
  have habs : ∀ needle : List Char, 'q' ∈ needle →
      ¬ containsSubstr c3Content needle = true := by
    intro needle hq hc
    have hmem := mem_of_containsSubstr _ _ hc 'q' hq
    rw [show c3Content = List.replicate 3000 'x' from rfl, List.mem_replicate] at hmem
    exact absurd hmem.2 (by decide)
  refine claimC3_thm c3Content c3Diff false "q".data ?_ ?_ ?_
  · rw [show c3Content.length = 3000 from by
      rw [show c3Content = List.replicate 3000 'x' from rfl, List.length_replicate]]
    decide
  · rw [hparse]
    decide
  · rw [hparse, applyBlocksLoop_cons, hnorm3, if_neg (habs _ (by decide)),
      if_neg (habs _ (by decide))]
